import Mathlib

/-!
Shallow embedding of the stock-market order simulator (`src/main.cpp`).

Modelling conventions:
* `double` prices are modelled as `ℚ`.  The program never performs
  floating-point arithmetic on prices — it only copies them and compares
  them with `==`, `<`, `>=` — so the embedding over the rationals is
  observationally faithful for every representable input.
* `int` quantities and timestamps are modelled as `ℤ`; the program only
  compares them and subtracts `min buy.quantity sell.quantity` from a
  quantity, which cannot overflow when the inputs do not.
* `std::priority_queue<Order>` is modelled as a `List Order` kept sorted
  with the best (heap-top) element first: `push` is an ordered insert with
  respect to the comparator `Order.ltOrder` (the source's `operator<`),
  `top` is `List.head?` and `pop` is `List.tail`.  Within one queue the
  comparator is a strict weak order (all elements share the same `type`
  field), so the heap's observable behaviour is exactly that of the
  sorted list.
* the matching loop `OrderBook::matchOrders` is modelled with explicit
  fuel (`sweepFuel`); `sweepFuel_isSome` below proves that
  `buyOrders.length + sellOrders.length` units of fuel always suffice, so
  `matchOrders` (which supplies exactly that much fuel) is the loop's
  exact result.
* output lines written to the `std::ofstream` are modelled as a list of
  `Rec` values, in emission order.
-/

/-- An order, as in `struct Order` of `src/main.cpp`: `type` is `'B'` for
buy and `'S'` for sell, `timestamp` is the arrival sequence number. -/
structure Order where
  id : String
  type : Char
  quantity : Int
  limitPrice : ℚ
  isMarketOrder : Bool
  timestamp : Int
deriving DecidableEq

/-- The comparator `Order::operator<` of `src/main.cpp`: buy orders rank
higher price first, sell orders rank lower price first, and ties are
broken by older (smaller) timestamp first.  `a.ltOrder b = true` means
`a < b`, i.e. `b` outranks `a` in the priority queue. -/
def Order.ltOrder (a b : Order) : Bool :=
  if a.type = 'B' then
    if a.limitPrice ≠ b.limitPrice then a.limitPrice < b.limitPrice
    else a.timestamp > b.timestamp
  else
    if a.limitPrice ≠ b.limitPrice then a.limitPrice > b.limitPrice
    else a.timestamp > b.timestamp

/-- `std::priority_queue::push`, on the sorted-list model of the heap:
insert `o` before the first element that compares `<` against it. -/
def pqInsert (o : Order) : List Order → List Order
  | [] => [o]
  | x :: xs => if x.ltOrder o then o :: x :: xs else x :: pqInsert o xs

/-- An output record written to the output file: the two trade lines
emitted by `matchOrders` and the residual line emitted by
`writeUnexecutedOrders`. -/
inductive Rec where
  | purchased (id : String) (qty : Int) (price : ℚ)
  | sold (id : String) (qty : Int) (price : ℚ)
  | unexecuted (id : String) (qty : Int)
deriving DecidableEq

/-- The order book state: the two priority queues (sorted-list model, best
first) and the last traded price, as in `class OrderBook`. -/
structure OrderBook where
  buyOrders : List Order
  sellOrders : List Order
  lastTradedPrice : ℚ
deriving DecidableEq

/-- `OrderBook::addOrder`: push the order onto the queue of its side.
No validation of any kind is performed by the source. -/
def addOrder (bk : OrderBook) (o : Order) : OrderBook :=
  if o.type = 'B' then { bk with buyOrders := pqInsert o bk.buyOrders }
  else { bk with sellOrders := pqInsert o bk.sellOrders }

/-- `OrderBook::canMatch`: a buy and a sell cross iff either is a market
order or the buy's limit price is at least the sell's. -/
def canMatch (buy sell : Order) : Bool :=
  buy.isMarketOrder || sell.isMarketOrder || buy.limitPrice ≥ sell.limitPrice

/-- `OrderBook::determinePrice`: both limit — the earlier-arriving order's
limit price; one market — the limit order's price; both market — the last
traded price. -/
def determinePrice (lastTradedPrice : ℚ) (buy sell : Order) : ℚ :=
  if !buy.isMarketOrder && !sell.isMarketOrder then
    if buy.timestamp < sell.timestamp then buy.limitPrice else sell.limitPrice
  else if !buy.isMarketOrder then buy.limitPrice
  else if !sell.isMarketOrder then sell.limitPrice
  else lastTradedPrice

/-- One iteration of the `matchOrders` loop body after the two `pop`
calls: `buy` and `sell` are the popped tops, `bs` and `ss` the remaining
queues.  Computes the traded quantity and execution price, updates the
last traded price, emits the two trade records, and reinserts each
partially filled side. -/
def tradeExec (lastTradedPrice : ℚ) (buy sell : Order) (bs ss : List Order) :
    OrderBook × List Rec :=
  let tradedQuantity := min buy.quantity sell.quantity
  let executionPrice := determinePrice lastTradedPrice buy sell
  let bs' := if tradedQuantity < buy.quantity then
      pqInsert { buy with quantity := buy.quantity - tradedQuantity } bs else bs
  let ss' := if tradedQuantity < sell.quantity then
      pqInsert { sell with quantity := sell.quantity - tradedQuantity } ss else ss
  (⟨bs', ss', executionPrice⟩,
    [Rec.purchased buy.id tradedQuantity executionPrice,
     Rec.sold sell.id tradedQuantity executionPrice])

/-- The `while` loop of `OrderBook::matchOrders`, with explicit fuel: stop
when a queue is empty or the tops do not cross; otherwise pop both tops,
execute the trade and continue.  `none` means the fuel ran out before the
loop finished (shown impossible for fuel `≥` total queue length). -/
def sweepFuel : Nat → OrderBook → Option (OrderBook × List Rec)
  | fuel, bk =>
    match bk.buyOrders, bk.sellOrders with
    | [], _ => some (bk, [])
    | _ :: _, [] => some (bk, [])
    | buy :: bs, sell :: ss =>
      if canMatch buy sell then
        match fuel with
        | 0 => none
        | f + 1 =>
          match sweepFuel f (tradeExec bk.lastTradedPrice buy sell bs ss).1 with
          | none => none
          | some r => some (r.1, (tradeExec bk.lastTradedPrice buy sell bs ss).2 ++ r.2)
      else some (bk, [])

/-- `OrderBook::matchOrders`: run the sweep with enough fuel for every
possible execution (each iteration strictly decreases the total number of
resting orders, see `sweepFuel_isSome`). -/
def matchOrders (bk : OrderBook) : OrderBook × List Rec :=
  (sweepFuel (bk.buyOrders.length + bk.sellOrders.length) bk).getD (bk, [])

/-- One submission as performed by the main loop: `addOrder` then
`matchOrders`. -/
def submit (bk : OrderBook) (o : Order) : OrderBook × List Rec :=
  matchOrders (addOrder bk o)

/-- The main ingestion loop: submit each parsed order in turn,
concatenating the emitted trade records. -/
def runOrders : OrderBook → List Order → OrderBook × List Rec
  | bk, [] => (bk, [])
  | bk, o :: os =>
    let r₁ := submit bk o
    let r₂ := runOrders r₁.1 os
    (r₂.1, r₁.2 ++ r₂.2)

/-- The copy-and-pop-everything loop of `writeUnexecutedOrders` /
`displayOrders`: drains a copy of a queue into a vector, leaving the
queue member itself untouched.  On the sorted-list model popping in
priority order returns the list itself. -/
def drainCopy : List Order → List Order
  | [] => []
  | x :: xs => x :: drainCopy xs

/-- The `std::sort` call of `writeUnexecutedOrders` (comparator
`a.timestamp < b.timestamp`), modelled as insertion sort: insert one
element into an already timestamp-sorted list. -/
def insertByTs (o : Order) : List Order → List Order
  | [] => [o]
  | x :: xs => if o.timestamp ≤ x.timestamp then o :: x :: xs else x :: insertByTs o xs

/-- Sorting by ascending timestamp (the `std::sort` of
`writeUnexecutedOrders`). -/
def sortByTs : List Order → List Order
  | [] => []
  | x :: xs => insertByTs x (sortByTs xs)

/-- `OrderBook::writeUnexecutedOrders` (a `const` member): drain copies of
both queues, sort the union by arrival timestamp, and emit one
`unexecuted` record per order.  The book is returned alongside the
records to make the frame effect of the call explicit: the method only
reads the queues and the last traded price. -/
def writeUnexecutedOrders (bk : OrderBook) : OrderBook × List Rec :=
  let unexecutedOrders := sortByTs (drainCopy bk.buyOrders ++ drainCopy bk.sellOrders)
  (bk, unexecutedOrders.map fun o => Rec.unexecuted o.id o.quantity)

/-- Quantity attributed to id `x` by one output record, counting the two
kinds of trade lines and ignoring residual lines. -/
def recQty (x : String) : Rec → Int
  | .purchased i q _ => if i = x then q else 0
  | .sold i q _ => if i = x then q else 0
  | .unexecuted _ _ => 0

/-- Total quantity traded by id `x` over a list of output records. -/
def tradedSum (x : String) (recs : List Rec) : Int :=
  (recs.map (recQty x)).sum

/-- Quantity reported as unexecuted for id `x` by one output record. -/
def unexRecQty (x : String) : Rec → Int
  | .unexecuted i q => if i = x then q else 0
  | _ => 0

/-- Total quantity reported unexecuted for id `x` over a list of output
records (`0` when the id never appears). -/
def unexQty (x : String) (recs : List Rec) : Int :=
  (recs.map (unexRecQty x)).sum

/-- Total resting quantity of id `x` in a list of orders. -/
def qSum (x : String) (l : List Order) : Int :=
  (l.map fun o => if o.id = x then o.quantity else 0).sum

/-- Total resting quantity of id `x` over both queues of a book. -/
def qSumBook (x : String) (bk : OrderBook) : Int :=
  qSum x bk.buyOrders + qSum x bk.sellOrders

/-- Submitted quantity carried by id `x` over a list of input orders. -/
def osSum (x : String) (os : List Order) : Int :=
  (os.map fun o => if o.id = x then o.quantity else 0).sum

/-- The head of a bid queue dominates `o` price-then-time: strictly higher
limit price, or equal price and arrival no later. -/
def bidDominates (h o : Order) : Prop :=
  o.limitPrice < h.limitPrice ∨ (h.limitPrice = o.limitPrice ∧ h.timestamp ≤ o.timestamp)

/-- The head of an ask queue dominates `o` price-then-time: strictly lower
limit price, or equal price and arrival no later. -/
def askDominates (h o : Order) : Prop :=
  h.limitPrice < o.limitPrice ∨ (h.limitPrice = o.limitPrice ∧ h.timestamp ≤ o.timestamp)

/-- The heap ordering invariant on the sorted-list model of a queue:
every element compares not-`<` against every later element, so the head
is a maximal element for `Order.ltOrder`. -/
def pqOrdered (l : List Order) : Prop :=
  l.Pairwise fun a b => a.ltOrder b = false

theorem pqInsert_perm (o : Order) (l : List Order) : (pqInsert o l).Perm (o :: l) := by
  induction l with
  | nil => simp [pqInsert]
  | cons x xs ih =>
    simp only [pqInsert]
    split
    · exact List.Perm.refl _
    · exact (ih.cons x).trans (List.Perm.swap o x xs)

theorem pqInsert_length (o : Order) (l : List Order) :
    (pqInsert o l).length = l.length + 1 := by
  simpa using (pqInsert_perm o l).length_eq

theorem qSum_perm (x : String) {l₁ l₂ : List Order} (h : l₁.Perm l₂) :
    qSum x l₁ = qSum x l₂ :=
  (h.map _).sum_eq

theorem qSum_cons (x : String) (o : Order) (l : List Order) :
    qSum x (o :: l) = (if o.id = x then o.quantity else 0) + qSum x l := by
  simp [qSum]

theorem qSum_append (x : String) (l₁ l₂ : List Order) :
    qSum x (l₁ ++ l₂) = qSum x l₁ + qSum x l₂ := by
  simp [qSum]

theorem qSum_pqInsert (x : String) (o : Order) (l : List Order) :
    qSum x (pqInsert o l) = (if o.id = x then o.quantity else 0) + qSum x l := by
  rw [qSum_perm x (pqInsert_perm o l), qSum_cons]

theorem tradedSum_append (x : String) (r₁ r₂ : List Rec) :
    tradedSum x (r₁ ++ r₂) = tradedSum x r₁ + tradedSum x r₂ := by
  simp [tradedSum]

theorem drainCopy_eq (l : List Order) : drainCopy l = l := by
  induction l with
  | nil => rfl
  | cons x xs ih => simp [drainCopy, ih]

theorem insertByTs_perm (o : Order) (l : List Order) : (insertByTs o l).Perm (o :: l) := by
  induction l with
  | nil => simp [insertByTs]
  | cons x xs ih =>
    simp only [insertByTs]
    split
    · exact List.Perm.refl _
    · exact (ih.cons x).trans (List.Perm.swap o x xs)

theorem sortByTs_perm (l : List Order) : (sortByTs l).Perm l := by
  induction l with
  | nil => simp [sortByTs]
  | cons x xs ih => exact (insertByTs_perm x (sortByTs xs)).trans (ih.cons x)

theorem insertByTs_pairwise (o : Order) (l : List Order)
    (hl : l.Pairwise fun a b => a.timestamp ≤ b.timestamp) :
    (insertByTs o l).Pairwise fun a b => a.timestamp ≤ b.timestamp := by
  induction l with
  | nil => simp [insertByTs]
  | cons x xs ih =>
    obtain ⟨hx, hxs⟩ := List.pairwise_cons.1 hl
    simp only [insertByTs]
    split
    · rename_i hle
      refine List.pairwise_cons.2 ⟨?_, hl⟩
      intro b hb
      rcases List.mem_cons.1 hb with rfl | hb
      · exact hle
      · exact hle.trans (hx b hb)
    · rename_i hgt
      refine List.pairwise_cons.2 ⟨?_, ih hxs⟩
      intro b hb
      rcases List.mem_cons.1 ((insertByTs_perm o xs).mem_iff.1 hb) with rfl | hb
      · omega
      · exact hx b hb

theorem sortByTs_pairwise (l : List Order) :
    (sortByTs l).Pairwise fun a b => a.timestamp ≤ b.timestamp := by
  induction l with
  | nil => simp [sortByTs]
  | cons x xs ih => exact insertByTs_pairwise x (sortByTs xs) ih

theorem ltOrder_false_iff_buy {a b : Order} (ht : a.type = 'B') :
    a.ltOrder b = false ↔ bidDominates a b := by
  unfold Order.ltOrder bidDominates
  rw [if_pos ht]
  by_cases hp : a.limitPrice = b.limitPrice
  · rw [if_neg (not_not_intro hp)]
    simp only [gt_iff_lt, decide_eq_false_iff_not, not_lt]
    constructor
    · intro hle
      exact Or.inr ⟨hp, hle⟩
    · rintro (hlt | ⟨_, hle⟩)
      · exact absurd hlt (by rw [hp]; exact lt_irrefl _)
      · exact hle
  · rw [if_pos hp]
    simp only [decide_eq_false_iff_not, not_lt]
    constructor
    · intro hle
      exact Or.inl (lt_of_le_of_ne hle fun e => hp e.symm)
    · rintro (hlt | ⟨he, _⟩)
      · exact le_of_lt hlt
      · exact absurd he hp

theorem ltOrder_false_iff_sell {a b : Order} (ht : ¬ a.type = 'B') :
    a.ltOrder b = false ↔ askDominates a b := by
  unfold Order.ltOrder askDominates
  rw [if_neg ht]
  by_cases hp : a.limitPrice = b.limitPrice
  · rw [if_neg (not_not_intro hp)]
    simp only [gt_iff_lt, decide_eq_false_iff_not, not_lt]
    constructor
    · intro hle
      exact Or.inr ⟨hp, hle⟩
    · rintro (hlt | ⟨_, hle⟩)
      · exact absurd hlt (by rw [hp]; exact lt_irrefl _)
      · exact hle
  · rw [if_pos hp]
    simp only [gt_iff_lt, decide_eq_false_iff_not, not_lt]
    constructor
    · intro hle
      exact Or.inl (lt_of_le_of_ne hle hp)
    · rintro (hlt | ⟨he, _⟩)
      · exact le_of_lt hlt
      · exact absurd he hp

theorem ltOrder_true_iff_buy {a b : Order} (ht : a.type = 'B') :
    a.ltOrder b = true ↔
      (a.limitPrice < b.limitPrice ∨
        (a.limitPrice = b.limitPrice ∧ b.timestamp < a.timestamp)) := by
  unfold Order.ltOrder
  rw [if_pos ht]
  by_cases hp : a.limitPrice = b.limitPrice
  · rw [if_neg (not_not_intro hp)]
    simp only [gt_iff_lt, decide_eq_true_eq]
    constructor
    · intro h
      exact Or.inr ⟨hp, h⟩
    · rintro (hlt | ⟨_, h⟩)
      · exact absurd hlt (by rw [hp]; exact lt_irrefl _)
      · exact h
  · rw [if_pos hp]
    simp only [decide_eq_true_eq]
    constructor
    · intro h
      exact Or.inl h
    · rintro (hlt | ⟨he, _⟩)
      · exact hlt
      · exact absurd he hp

theorem ltOrder_true_iff_sell {a b : Order} (ht : ¬ a.type = 'B') :
    a.ltOrder b = true ↔
      (b.limitPrice < a.limitPrice ∨
        (a.limitPrice = b.limitPrice ∧ b.timestamp < a.timestamp)) := by
  unfold Order.ltOrder
  rw [if_neg ht]
  by_cases hp : a.limitPrice = b.limitPrice
  · rw [if_neg (not_not_intro hp)]
    simp only [gt_iff_lt, decide_eq_true_eq]
    constructor
    · intro h
      exact Or.inr ⟨hp, h⟩
    · rintro (hlt | ⟨_, h⟩)
      · exact absurd hlt (by rw [hp]; exact lt_irrefl _)
      · exact h
  · rw [if_pos hp]
    simp only [gt_iff_lt, decide_eq_true_eq]
    constructor
    · intro h
      exact Or.inl h
    · rintro (hlt | ⟨he, _⟩)
      · exact hlt
      · exact absurd he hp

theorem ltOrder_asymm {a b : Order} (h : a.type = b.type) (hab : a.ltOrder b = true) :
    b.ltOrder a = false := by
  by_cases hB : a.type = 'B'
  · rw [ltOrder_true_iff_buy hB] at hab
    rw [ltOrder_false_iff_buy (h ▸ hB)]
    rcases hab with h1 | ⟨h1, h2⟩
    · exact Or.inl h1
    · exact Or.inr ⟨h1.symm, le_of_lt h2⟩
  · rw [ltOrder_true_iff_sell hB] at hab
    rw [ltOrder_false_iff_sell (h ▸ hB)]
    rcases hab with h1 | ⟨h1, h2⟩
    · exact Or.inl h1
    · exact Or.inr ⟨h1.symm, le_of_lt h2⟩

theorem ltOrder_step {x o y : Order} (hxo : x.type = o.type) (_hxy : x.type = y.type)
    (h1 : x.ltOrder o = true) (h2 : x.ltOrder y = false) : o.ltOrder y = false := by
  by_cases hB : x.type = 'B'
  · rw [ltOrder_true_iff_buy hB] at h1
    rw [ltOrder_false_iff_buy hB] at h2
    rw [ltOrder_false_iff_buy (hxo ▸ hB)]
    rcases h1 with h1 | ⟨e1, t1⟩ <;> rcases h2 with h2 | ⟨e2, t2⟩
    · exact Or.inl (h2.trans h1)
    · exact Or.inl (by rw [← e2]; exact h1)
    · exact Or.inl (by rw [← e1]; exact h2)
    · exact Or.inr ⟨e1.symm.trans e2, le_of_lt (lt_of_lt_of_le t1 t2)⟩
  · rw [ltOrder_true_iff_sell hB] at h1
    rw [ltOrder_false_iff_sell hB] at h2
    rw [ltOrder_false_iff_sell (hxo ▸ hB)]
    rcases h1 with h1 | ⟨e1, t1⟩ <;> rcases h2 with h2 | ⟨e2, t2⟩
    · exact Or.inl (h1.trans h2)
    · exact Or.inl (by rw [← e2]; exact h1)
    · exact Or.inl (by rw [← e1]; exact h2)
    · exact Or.inr ⟨e1.symm.trans e2, le_of_lt (lt_of_lt_of_le t1 t2)⟩

/-- `pqInsert` preserves the heap ordering invariant on a queue whose
orders all share one side, so every queue the program builds satisfies
`pqOrdered`. -/
theorem pqInsert_pqOrdered {o : Order} {l : List Order} {c : Char}
    (hto : o.type = c) (htl : ∀ x ∈ l, x.type = c) (hl : pqOrdered l) :
    pqOrdered (pqInsert o l) := by
  induction l with
  | nil => simp [pqInsert, pqOrdered]
  | cons x xs ih =>
    have hx : x.type = c := htl x (List.mem_cons_self x xs)
    have hxs : ∀ y ∈ xs, y.type = c := fun y hy => htl y (List.mem_cons_of_mem x hy)
    have hl' : (x :: xs).Pairwise (fun a b => a.ltOrder b = false) := hl
    have hxall : ∀ y ∈ xs, x.ltOrder y = false := (List.pairwise_cons.1 hl').1
    have hxs' : pqOrdered xs := (List.pairwise_cons.1 hl').2
    simp only [pqInsert]
    split
    · rename_i hlt
      refine List.pairwise_cons.2 ⟨?_, hl'⟩
      intro y hy
      rcases List.mem_cons.1 hy with rfl | hy
      · exact ltOrder_asymm (hx.trans hto.symm) hlt
      · exact ltOrder_step (hx.trans hto.symm) (hx.trans (hxs y hy).symm) hlt (hxall y hy)
    · rename_i hlt
      refine List.pairwise_cons.2 ⟨?_, ih hxs hxs'⟩
      intro y hy
      rcases List.mem_cons.1 ((pqInsert_perm o xs).mem_iff.1 hy) with rfl | hy
      · simpa using hlt
      · exact hxall y hy

theorem sweepFuel_nil_buy (fuel : Nat) (S : List Order) (p : ℚ) :
    sweepFuel fuel ⟨[], S, p⟩ = some (⟨[], S, p⟩, []) := by
  cases fuel <;> rfl

theorem sweepFuel_nil_sell (fuel : Nat) (b : Order) (bs : List Order) (p : ℚ) :
    sweepFuel fuel ⟨b :: bs, [], p⟩ = some (⟨b :: bs, [], p⟩, []) := by
  cases fuel <;> rfl

theorem sweepFuel_zero_cons (buy sell : Order) (bs ss : List Order) (p : ℚ) :
    sweepFuel 0 ⟨buy :: bs, sell :: ss, p⟩ =
      if canMatch buy sell then none
      else some (⟨buy :: bs, sell :: ss, p⟩, []) := rfl

theorem sweepFuel_succ_cons (f : Nat) (buy sell : Order) (bs ss : List Order) (p : ℚ) :
    sweepFuel (f + 1) ⟨buy :: bs, sell :: ss, p⟩ =
      if canMatch buy sell then
        match sweepFuel f (tradeExec p buy sell bs ss).1 with
        | none => none
        | some r => some (r.1, (tradeExec p buy sell bs ss).2 ++ r.2)
      else some (⟨buy :: bs, sell :: ss, p⟩, []) := rfl

/-- In one loop iteration the total number of resting orders strictly
decreases: both tops are popped and at most one side (the one that did
not trade its full quantity — never both, since the traded quantity is
the minimum) is reinserted. -/
theorem tradeExec_size (ltp : ℚ) (buy sell : Order) (bs ss : List Order) :
    (tradeExec ltp buy sell bs ss).1.buyOrders.length
      + (tradeExec ltp buy sell bs ss).1.sellOrders.length
      ≤ bs.length + ss.length + 1 := by
  have hmin : ¬(min buy.quantity sell.quantity < buy.quantity ∧
      min buy.quantity sell.quantity < sell.quantity) := by
    rintro ⟨h1, h2⟩
    exact absurd (lt_min h1 h2) (lt_irrefl _)
  by_cases h1 : min buy.quantity sell.quantity < buy.quantity <;>
    by_cases h2 : min buy.quantity sell.quantity < sell.quantity
  · exact absurd ⟨h1, h2⟩ hmin
  all_goals simp [tradeExec, h1, h2, pqInsert_length]
  all_goals omega

theorem sweepFuel_isSome : ∀ (fuel : Nat) (bk : OrderBook),
    bk.buyOrders.length + bk.sellOrders.length ≤ fuel →
    ∃ r, sweepFuel fuel bk = some r := by
  intro fuel
  induction fuel with
  | zero =>
    intro bk h
    obtain ⟨B, S, p⟩ := bk
    cases B with
    | nil => exact ⟨_, sweepFuel_nil_buy 0 S p⟩
    | cons b bs => simp at h
  | succ f ih =>
    intro bk h
    obtain ⟨B, S, p⟩ := bk
    cases B with
    | nil => exact ⟨_, sweepFuel_nil_buy _ S p⟩
    | cons buy bs =>
      cases S with
      | nil => exact ⟨_, sweepFuel_nil_sell _ buy bs p⟩
      | cons sell ss =>
        cases hm : canMatch buy sell with
        | false =>
          exact ⟨_, by rw [sweepFuel_succ_cons, if_neg (by simp [hm])]⟩
        | true =>
          have hsz := tradeExec_size p buy sell bs ss
          have hf : (tradeExec p buy sell bs ss).1.buyOrders.length
              + (tradeExec p buy sell bs ss).1.sellOrders.length ≤ f := by
            simp only [OrderBook.buyOrders, OrderBook.sellOrders, List.length_cons] at h
            omega
          obtain ⟨r, hr⟩ := ih _ hf
          exact ⟨(r.1, (tradeExec p buy sell bs ss).2 ++ r.2),
            by rw [sweepFuel_succ_cons, if_pos hm, hr]⟩

/-- `matchOrders` supplies exactly enough fuel, so it returns the sweep's
fixed point. -/
theorem matchOrders_eq_sweep (bk : OrderBook) :
    ∃ r, sweepFuel (bk.buyOrders.length + bk.sellOrders.length) bk = some r
      ∧ matchOrders bk = r := by
  obtain ⟨r, hr⟩ := sweepFuel_isSome _ bk (le_refl _)
  exact ⟨r, hr, by rw [matchOrders, hr]; rfl⟩

/-- C8: for every state of the two queues in which all resting quantities
are positive, the clearing sweep triggered by one submission terminates —
a number of iterations bounded by the total number of resting orders
suffices to reach the loop's exit condition. -/
theorem sweep_terminates (bk : OrderBook)
    (_hq : ∀ o ∈ bk.buyOrders ++ bk.sellOrders, 0 < o.quantity) :
    ∃ r, sweepFuel (bk.buyOrders.length + bk.sellOrders.length) bk = some r :=
  sweepFuel_isSome _ bk (le_refl _)

/-- Witness for C8 on a concrete crossing book. -/
theorem sweep_terminates_witness :
    ∃ r, sweepFuel 2 ⟨[⟨"O1", 'B', 10, 101, false, 1⟩],
        [⟨"O2", 'S', 5, 99, false, 2⟩], 100⟩ = some r := by
  have h := sweep_terminates ⟨[⟨"O1", 'B', 10, 101, false, 1⟩],
      [⟨"O2", 'S', 5, 99, false, 2⟩], 100⟩ (by decide)
  simpa using h

/-- When the sweep loop returns, it is because a queue emptied or because
the tops no longer cross. -/
theorem sweep_exit : ∀ (fuel : Nat) (bk bk' : OrderBook) (recs : List Rec),
    sweepFuel fuel bk = some (bk', recs) →
    bk'.buyOrders = [] ∨ bk'.sellOrders = [] ∨
      ∀ b bs a ss, bk'.buyOrders = b :: bs → bk'.sellOrders = a :: ss →
        canMatch b a = false := by
  intro fuel
  induction fuel with
  | zero =>
    intro bk bk' recs h
    obtain ⟨B, S, p⟩ := bk
    cases B with
    | nil =>
      rw [sweepFuel_nil_buy] at h
      obtain ⟨h1, -⟩ := Prod.mk.injEq .. ▸ Option.some.inj h
      exact Or.inl (h1 ▸ rfl)
    | cons buy bs =>
      cases S with
      | nil =>
        rw [sweepFuel_nil_sell] at h
        obtain ⟨h1, -⟩ := Prod.mk.injEq .. ▸ Option.some.inj h
        exact Or.inr (Or.inl (h1 ▸ rfl))
      | cons sell ss =>
        rw [sweepFuel_zero_cons] at h
        cases hm : canMatch buy sell with
        | true => rw [if_pos hm] at h; exact absurd h (by simp)
        | false =>
          rw [if_neg (by simp [hm])] at h
          obtain ⟨h1, -⟩ := Prod.mk.injEq .. ▸ Option.some.inj h
          refine Or.inr (Or.inr ?_)
          intro b bs' a ss' hb hs
          rw [← h1] at hb hs
          obtain ⟨rfl, -⟩ := List.cons.injEq .. ▸ hb
          obtain ⟨rfl, -⟩ := List.cons.injEq .. ▸ hs
          exact hm
  | succ f ih =>
    intro bk bk' recs h
    obtain ⟨B, S, p⟩ := bk
    cases B with
    | nil =>
      rw [sweepFuel_nil_buy] at h
      obtain ⟨h1, -⟩ := Prod.mk.injEq .. ▸ Option.some.inj h
      exact Or.inl (h1 ▸ rfl)
    | cons buy bs =>
      cases S with
      | nil =>
        rw [sweepFuel_nil_sell] at h
        obtain ⟨h1, -⟩ := Prod.mk.injEq .. ▸ Option.some.inj h
        exact Or.inr (Or.inl (h1 ▸ rfl))
      | cons sell ss =>
        rw [sweepFuel_succ_cons] at h
        cases hm : canMatch buy sell with
        | false =>
          rw [if_neg (by simp [hm])] at h
          obtain ⟨h1, -⟩ := Prod.mk.injEq .. ▸ Option.some.inj h
          refine Or.inr (Or.inr ?_)
          intro b bs' a ss' hb hs
          rw [← h1] at hb hs
          obtain ⟨rfl, -⟩ := List.cons.injEq .. ▸ hb
          obtain ⟨rfl, -⟩ := List.cons.injEq .. ▸ hs
          exact hm
        | true =>
          rw [if_pos hm] at h
          cases hsw : sweepFuel f (tradeExec p buy sell bs ss).1 with
          | none => rw [hsw] at h; exact absurd h (by simp)
          | some r =>
            rw [hsw] at h
            obtain ⟨h1, -⟩ := Prod.mk.injEq .. ▸ Option.some.inj h
            have := ih (tradeExec p buy sell bs ss).1 r.1 r.2 (by rw [hsw])
            rw [← h1]
            exact this

/-- C5: after every submit (insert then sweep), either one queue is
empty, or for the top-of-book pair the best bid's price is strictly
below the best ask's price — unless one of the two top orders is a
market order. -/
theorem no_crossing_after_submit (bk : OrderBook) (o : Order) (bk' : OrderBook)
    (recs : List Rec) (h : submit bk o = (bk', recs)) :
    bk'.buyOrders = [] ∨ bk'.sellOrders = [] ∨
      ∀ b bs a ss, bk'.buyOrders = b :: bs → bk'.sellOrders = a :: ss →
        b.isMarketOrder = true ∨ a.isMarketOrder = true ∨
          b.limitPrice < a.limitPrice := by
  obtain ⟨r, hr, hm⟩ := matchOrders_eq_sweep (addOrder bk o)
  rw [submit, hm] at h
  subst h
  have hE := sweep_exit _ _ _ _ hr
  rcases hE with h1 | h2 | h3
  · exact Or.inl h1
  · exact Or.inr (Or.inl h2)
  · refine Or.inr (Or.inr ?_)
    intro b bs a ss hb hs
    have hc := h3 b bs a ss hb hs
    simp only [canMatch, Bool.or_eq_false_iff, decide_eq_false_iff_not, not_le] at hc
    exact Or.inr (Or.inr hc.2)

/-- Witness for C5: submitting a single limit buy into the empty book
leaves the ask queue empty. -/
theorem no_crossing_after_submit_witness :
    (submit ⟨[], [], 100⟩ ⟨"O1", 'B', 10, 101, false, 1⟩).1.buyOrders = [] ∨
    (submit ⟨[], [], 100⟩ ⟨"O1", 'B', 10, 101, false, 1⟩).1.sellOrders = [] ∨
      ∀ b bs a ss,
        (submit ⟨[], [], 100⟩ ⟨"O1", 'B', 10, 101, false, 1⟩).1.buyOrders = b :: bs →
        (submit ⟨[], [], 100⟩ ⟨"O1", 'B', 10, 101, false, 1⟩).1.sellOrders = a :: ss →
        b.isMarketOrder = true ∨ a.isMarketOrder = true ∨
          b.limitPrice < a.limitPrice :=
  no_crossing_after_submit ⟨[], [], 100⟩ ⟨"O1", 'B', 10, 101, false, 1⟩ _ _ rfl

/-- C2: for every book state with top-of-book pair (best buy `b`, best
sell `a`), the sweep executes a match iff `b` or `a` is a market order or
`b`'s limit price is at least `a`'s; when the condition is false the
sweep stops immediately, removing neither order and emitting nothing,
and when it is true the first executed match is between `b` and `a`. -/
theorem cross_test_iff (p : ℚ) (b a : Order) (bs ss : List Order) :
    ((matchOrders ⟨b :: bs, a :: ss, p⟩).2 ≠ [] ↔ canMatch b a = true)
  ∧ (canMatch b a = false →
      matchOrders ⟨b :: bs, a :: ss, p⟩ = (⟨b :: bs, a :: ss, p⟩, []))
  ∧ (canMatch b a = true →
      ∃ rest, (matchOrders ⟨b :: bs, a :: ss, p⟩).2 =
        Rec.purchased b.id (min b.quantity a.quantity) (determinePrice p b a)
          :: Rec.sold a.id (min b.quantity a.quantity) (determinePrice p b a)
          :: rest) := by
  have hfuel : (⟨b :: bs, a :: ss, p⟩ : OrderBook).buyOrders.length
      + (⟨b :: bs, a :: ss, p⟩ : OrderBook).sellOrders.length
      = (bs.length + ss.length + 1) + 1 := by
    simp only [OrderBook.buyOrders, OrderBook.sellOrders, List.length_cons]
    omega
  cases hm : canMatch b a with
  | false =>
    have heq : matchOrders ⟨b :: bs, a :: ss, p⟩ = (⟨b :: bs, a :: ss, p⟩, []) := by
      rw [matchOrders, hfuel, sweepFuel_succ_cons, if_neg (by simp [hm])]
      rfl
    refine ⟨?_, fun _ => heq, fun ht => absurd ht (by simp [hm])⟩
    rw [heq]
    simp
  | true =>
    obtain ⟨r, hr⟩ := sweepFuel_isSome (bs.length + ss.length + 1)
      (tradeExec p b a bs ss).1 (by
        have := tradeExec_size p b a bs ss
        omega)
    have heq : matchOrders ⟨b :: bs, a :: ss, p⟩
        = (r.1, (tradeExec p b a bs ss).2 ++ r.2) := by
      rw [matchOrders, hfuel, sweepFuel_succ_cons, if_pos hm, hr]
      rfl
    refine ⟨?_, fun hf => absurd hf (by simp [hm]), fun _ => ?_⟩
    · rw [heq]
      simp [tradeExec, hm]
    · refine ⟨r.2, ?_⟩
      rw [heq]
      rfl

/-- Witness for C2: with a crossing top-of-book pair the sweep trades
(the records are exactly the pair's purchase and sale), and with a
non-crossing pair it leaves the book unchanged. -/
theorem cross_test_iff_witness :
    ((matchOrders ⟨[⟨"O1", 'B', 10, 101, false, 1⟩], [⟨"O2", 'S', 5, 99, false, 2⟩],
        100⟩).2 ≠ [])
  ∧ matchOrders ⟨[⟨"O3", 'B', 10, 98, false, 1⟩], [⟨"O4", 'S', 5, 99, false, 2⟩], 100⟩
      = (⟨[⟨"O3", 'B', 10, 98, false, 1⟩], [⟨"O4", 'S', 5, 99, false, 2⟩], 100⟩, []) := by
  constructor
  · exact (cross_test_iff 100 ⟨"O1", 'B', 10, 101, false, 1⟩
      ⟨"O2", 'S', 5, 99, false, 2⟩ [] []).1.2 (by decide)
  · exact (cross_test_iff 100 ⟨"O3", 'B', 10, 98, false, 1⟩
      ⟨"O4", 'S', 5, 99, false, 2⟩ [] []).2.1 (by decide)

/-- C1: for every crossing pair (buy `b`, sell `a`) executed by the
clearing sweep, the execution price is: both limit — the limit price of
the order with the lower arrival sequence; exactly one market — the limit
order's limit price; both market — the current last traded price, which
the trade then carries forward unchanged. -/
theorem determinePrice_spec (ltp : ℚ) (b a : Order) :
    (b.isMarketOrder = false → a.isMarketOrder = false → b.timestamp ≠ a.timestamp →
      determinePrice ltp b a =
        if b.timestamp < a.timestamp then b.limitPrice else a.limitPrice)
  ∧ (b.isMarketOrder = true → a.isMarketOrder = false →
      determinePrice ltp b a = a.limitPrice)
  ∧ (b.isMarketOrder = false → a.isMarketOrder = true →
      determinePrice ltp b a = b.limitPrice)
  ∧ (b.isMarketOrder = true → a.isMarketOrder = true → determinePrice ltp b a = ltp)
  ∧ (∀ bs ss : List Order, b.isMarketOrder = true → a.isMarketOrder = true →
      (tradeExec ltp b a bs ss).1.lastTradedPrice = ltp) := by
  refine ⟨?_, ?_, ?_, ?_, ?_⟩ <;> intros <;> simp_all [determinePrice, tradeExec]

/-- Witness for C1 at concrete inputs: a limit/limit pair prices at the
earlier order's limit, and a market/market pair prices at the last traded
price. -/
theorem determinePrice_spec_witness :
    determinePrice 100 ⟨"O1", 'B', 10, 101, false, 1⟩ ⟨"O2", 'S', 5, 99, false, 2⟩ = 101
  ∧ determinePrice 100 ⟨"M1", 'B', 10, 0, true, 3⟩ ⟨"M2", 'S', 5, 0, true, 4⟩ = 100 := by
  constructor
  · have h := (determinePrice_spec 100 ⟨"O1", 'B', 10, 101, false, 1⟩
      ⟨"O2", 'S', 5, 99, false, 2⟩).1 rfl rfl (by decide)
    simpa using h
  · exact (determinePrice_spec 100 ⟨"M1", 'B', 10, 0, true, 3⟩
      ⟨"M2", 'S', 5, 0, true, 4⟩).2.2.2.1 rfl rfl

/-- C3 (code evaluated at the failing inputs): `addOrder` performs no
validation whatsoever — an order with quantity `0` and an order with a
negative limit price are both inserted into their side queue rather than
rejected. -/
theorem addOrder_no_validation :
    (addOrder ⟨[], [], 100⟩ ⟨"X", 'B', 0, 10, false, 1⟩).buyOrders
      = [⟨"X", 'B', 0, 10, false, 1⟩]
  ∧ (addOrder ⟨[], [], 100⟩ ⟨"Y", 'S', 5, -1, false, 1⟩).sellOrders
      = [⟨"Y", 'S', 5, -1, false, 1⟩] :=
  ⟨rfl, rfl⟩

/-- One loop iteration conserves quantity: the resting quantity of any id
after the trade plus the quantity the trade records attribute to that id
equals the resting quantity before (the popped tops included). -/
theorem tradeExec_qSum (x : String) (ltp : ℚ) (buy sell : Order) (bs ss : List Order) :
    qSum x (tradeExec ltp buy sell bs ss).1.buyOrders
      + qSum x (tradeExec ltp buy sell bs ss).1.sellOrders
      + tradedSum x (tradeExec ltp buy sell bs ss).2
      = qSum x (buy :: bs) + qSum x (sell :: ss) := by
  have hb : min buy.quantity sell.quantity ≤ buy.quantity := min_le_left _ _
  have hs : min buy.quantity sell.quantity ≤ sell.quantity := min_le_right _ _
  by_cases h1 : min buy.quantity sell.quantity < buy.quantity <;>
    by_cases h2 : min buy.quantity sell.quantity < sell.quantity <;>
      by_cases hx1 : buy.id = x <;> by_cases hx2 : sell.id = x <;>
        simp [tradeExec, tradedSum, recQty, qSum_pqInsert, qSum_cons, h1, h2, hx1, hx2] <;>
          omega

/-- The sweep conserves quantity: resting quantity of an id after the
sweep plus the quantity its trade records carry equals the resting
quantity before the sweep. -/
theorem sweep_qSum (x : String) : ∀ (fuel : Nat) (B S : List Order) (p : ℚ)
    (bk' : OrderBook) (recs : List Rec),
    sweepFuel fuel ⟨B, S, p⟩ = some (bk', recs) →
    qSum x bk'.buyOrders + qSum x bk'.sellOrders + tradedSum x recs
      = qSum x B + qSum x S := by
  intro fuel
  induction fuel with
  | zero =>
    intro B S p bk' recs h
    cases B with
    | nil =>
      rw [sweepFuel_nil_buy] at h
      obtain ⟨h1, h2⟩ := Prod.mk.injEq .. ▸ Option.some.inj h
      subst h2
      rw [← h1]
      simp [tradedSum]
    | cons buy bs =>
      cases S with
      | nil =>
        rw [sweepFuel_nil_sell] at h
        obtain ⟨h1, h2⟩ := Prod.mk.injEq .. ▸ Option.some.inj h
        subst h2
        rw [← h1]
        simp [tradedSum]
      | cons sell ss =>
        rw [sweepFuel_zero_cons] at h
        cases hm : canMatch buy sell with
        | true => rw [if_pos hm] at h; exact absurd h (by simp)
        | false =>
          rw [if_neg (by simp [hm])] at h
          obtain ⟨h1, h2⟩ := Prod.mk.injEq .. ▸ Option.some.inj h
          subst h2
          rw [← h1]
          simp [tradedSum]
  | succ f ih =>
    intro B S p bk' recs h
    cases B with
    | nil =>
      rw [sweepFuel_nil_buy] at h
      obtain ⟨h1, h2⟩ := Prod.mk.injEq .. ▸ Option.some.inj h
      subst h2
      rw [← h1]
      simp [tradedSum]
    | cons buy bs =>
      cases S with
      | nil =>
        rw [sweepFuel_nil_sell] at h
        obtain ⟨h1, h2⟩ := Prod.mk.injEq .. ▸ Option.some.inj h
        subst h2
        rw [← h1]
        simp [tradedSum]
      | cons sell ss =>
        rw [sweepFuel_succ_cons] at h
        cases hm : canMatch buy sell with
        | false =>
          rw [if_neg (by simp [hm])] at h
          obtain ⟨h1, h2⟩ := Prod.mk.injEq .. ▸ Option.some.inj h
          subst h2
          rw [← h1]
          simp [tradedSum]
        | true =>
          rw [if_pos hm] at h
          cases hsw : sweepFuel f (tradeExec p buy sell bs ss).1 with
          | none => rw [hsw] at h; exact absurd h (by simp)
          | some r =>
            rw [hsw] at h
            obtain ⟨h1, h2⟩ := Prod.mk.injEq .. ▸ Option.some.inj h
            subst h2
            rw [← h1, tradedSum_append]
            have hIH := ih (tradeExec p buy sell bs ss).1.buyOrders
              (tradeExec p buy sell bs ss).1.sellOrders
              (tradeExec p buy sell bs ss).1.lastTradedPrice r.1 r.2 (by exact hsw)
            have hTE := tradeExec_qSum x p buy sell bs ss
            omega

theorem addOrder_qSum (x : String) (bk : OrderBook) (o : Order) :
    qSum x (addOrder bk o).buyOrders + qSum x (addOrder bk o).sellOrders
      = qSum x bk.buyOrders + qSum x bk.sellOrders
        + (if o.id = x then o.quantity else 0) := by
  unfold addOrder
  by_cases ht : o.type = 'B' <;> by_cases hx : o.id = x <;>
    simp [ht, hx, qSum_pqInsert] <;> ring

theorem submit_qSum (x : String) (bk : OrderBook) (o : Order) :
    qSum x (submit bk o).1.buyOrders + qSum x (submit bk o).1.sellOrders
      + tradedSum x (submit bk o).2
      = qSum x bk.buyOrders + qSum x bk.sellOrders
        + (if o.id = x then o.quantity else 0) := by
  obtain ⟨r, hr, hm⟩ := matchOrders_eq_sweep (addOrder bk o)
  have hq := sweep_qSum x
    ((addOrder bk o).buyOrders.length + (addOrder bk o).sellOrders.length)
    (addOrder bk o).buyOrders (addOrder bk o).sellOrders
    (addOrder bk o).lastTradedPrice r.1 r.2 (by exact hr)
  have ha := addOrder_qSum x bk o
  simp only [submit, hm]
  omega

theorem osSum_cons (x : String) (o : Order) (os : List Order) :
    osSum x (o :: os) = (if o.id = x then o.quantity else 0) + osSum x os := by
  simp [osSum]

theorem runOrders_qSum (x : String) : ∀ (os : List Order) (bk : OrderBook),
    qSum x (runOrders bk os).1.buyOrders + qSum x (runOrders bk os).1.sellOrders
      + tradedSum x (runOrders bk os).2
      = qSum x bk.buyOrders + qSum x bk.sellOrders + osSum x os := by
  intro os
  induction os with
  | nil =>
    intro bk
    simp [runOrders, tradedSum, osSum]
  | cons o os ih =>
    intro bk
    have h1 := submit_qSum x bk o
    have h2 := ih (submit bk o).1
    simp only [runOrders, tradedSum_append, osSum_cons]
    omega

theorem unexQty_map (x : String) : ∀ (u : List Order),
    unexQty x (u.map fun o => Rec.unexecuted o.id o.quantity) = qSum x u := by
  intro u
  induction u with
  | nil => simp [unexQty, qSum]
  | cons o os ih =>
    simp only [List.map_cons, unexQty, List.sum_cons, qSum] at *
    rw [← ih]
    simp [unexRecQty]

/-- The unexecuted report attributes to each id exactly its total resting
quantity in the book. -/
theorem writeUnexecuted_qSum (x : String) (bk : OrderBook) :
    unexQty x (writeUnexecutedOrders bk).2
      = qSum x bk.buyOrders + qSum x bk.sellOrders := by
  unfold writeUnexecutedOrders
  rw [unexQty_map,
    qSum_perm x (sortByTs_perm (drainCopy bk.buyOrders ++ drainCopy bk.sellOrders)),
    drainCopy_eq, drainCopy_eq, qSum_append]

theorem osSum_eq_zero (y : String) : ∀ (os : List Order),
    (∀ b ∈ os, b.id ≠ y) → osSum y os = 0 := by
  intro os
  induction os with
  | nil => intro; simp [osSum]
  | cons a t ih =>
    intro hall
    rw [osSum_cons, if_neg (hall a (List.mem_cons_self a t)),
      ih fun b hb => hall b (List.mem_cons_of_mem a hb), add_zero]

theorem osSum_of_mem : ∀ (os : List Order) (o : Order), o ∈ os →
    os.Pairwise (fun a b => a.id ≠ b.id) → osSum o.id os = o.quantity := by
  intro os
  induction os with
  | nil =>
    intro o ho
    simp at ho
  | cons a t ih =>
    intro o ho hp
    obtain ⟨ha, ht⟩ := List.pairwise_cons.1 hp
    rcases List.mem_cons.1 ho with rfl | ho
    · rw [osSum_cons, if_pos rfl, osSum_eq_zero o.id t fun b hb => (ha b hb).symm,
        add_zero]
    · rw [osSum_cons, if_neg (ha o ho), ih o ho ht, zero_add]

/-- C7: the unexecuted report contains exactly one record per order still
resting in either queue (a permutation of the two queues), carrying its id
and remaining quantity, and the records follow the arrival-sequence order,
non-decreasing, regardless of side or price. -/
theorem writeUnexecutedOrders_spec (bk : OrderBook) :
    ∃ u : List Order,
      u.Perm (bk.buyOrders ++ bk.sellOrders)
      ∧ (u.Pairwise fun a b => a.timestamp ≤ b.timestamp)
      ∧ (writeUnexecutedOrders bk).2 = u.map fun o => Rec.unexecuted o.id o.quantity := by
  refine ⟨sortByTs (drainCopy bk.buyOrders ++ drainCopy bk.sellOrders), ?_, ?_, rfl⟩
  · rw [drainCopy_eq, drainCopy_eq]
    exact sortByTs_perm _
  · exact sortByTs_pairwise _

/-- C6: each side queue ranks price-then-time — on the bid side the head
has the highest limit price, on the ask side the lowest, ties going to the
lower arrival sequence; and since market orders carry limit price 0, a
market buy is not at the head whenever a positive-priced limit buy
rests. -/
theorem queue_price_time_priority :
    (∀ (l : List Order) (h : Order) (t : List Order), (∀ o ∈ l, o.type = 'B') →
        pqOrdered l → l = h :: t → ∀ o ∈ l, bidDominates h o)
  ∧ (∀ (l : List Order) (h : Order) (t : List Order), (∀ o ∈ l, o.type = 'S') →
        pqOrdered l → l = h :: t → ∀ o ∈ l, askDominates h o)
  ∧ (∀ (l : List Order) (h : Order) (t : List Order), (∀ o ∈ l, o.type = 'B') →
        pqOrdered l → l = h :: t → ∀ m ∈ l, m.limitPrice = 0 →
        ∀ b ∈ l, 0 < b.limitPrice → h ≠ m) := by
  have hbuy : ∀ (l : List Order) (h : Order) (t : List Order), (∀ o ∈ l, o.type = 'B') →
      pqOrdered l → l = h :: t → ∀ o ∈ l, bidDominates h o := by
    intro l h t hT hs hl o ho
    subst hl
    rcases List.mem_cons.1 ho with rfl | ho
    · exact Or.inr ⟨rfl, le_refl _⟩
    · have hs' : (h :: t).Pairwise (fun a b => a.ltOrder b = false) := hs
      exact (ltOrder_false_iff_buy (hT h (List.mem_cons_self h t))).1
        ((List.pairwise_cons.1 hs').1 o ho)
  refine ⟨hbuy, ?_, ?_⟩
  · intro l h t hT hs hl o ho
    subst hl
    rcases List.mem_cons.1 ho with rfl | ho
    · exact Or.inr ⟨rfl, le_refl _⟩
    · have hs' : (h :: t).Pairwise (fun a b => a.ltOrder b = false) := hs
      have hB : ¬ h.type = 'B' := by
        rw [hT h (List.mem_cons_self h t)]
        decide
      exact (ltOrder_false_iff_sell hB).1 ((List.pairwise_cons.1 hs').1 o ho)
  · intro l h t hT hs hl m hm hm0 b hb hbpos
    have hd := hbuy l h t hT hs hl b hb
    have hpos : 0 < h.limitPrice := by
      rcases hd with hlt | ⟨he, _⟩
      · exact hbpos.trans hlt
      · exact he ▸ hbpos
    intro he
    rw [he, hm0] at hpos
    exact lt_irrefl 0 hpos

/-- Witness for C6 on a concrete bid queue: a limit buy at price 10 heads
the queue and dominates a later market buy at price 0, and the head is
not the market order. -/
theorem queue_price_time_priority_witness :
    bidDominates ⟨"L", 'B', 5, 10, false, 1⟩ ⟨"M", 'B', 5, 0, true, 2⟩
  ∧ (⟨"L", 'B', 5, 10, false, 1⟩ : Order) ≠ ⟨"M", 'B', 5, 0, true, 2⟩ := by
  constructor
  · exact queue_price_time_priority.1
      [⟨"L", 'B', 5, 10, false, 1⟩, ⟨"M", 'B', 5, 0, true, 2⟩]
      ⟨"L", 'B', 5, 10, false, 1⟩ [⟨"M", 'B', 5, 0, true, 2⟩]
      (by decide) (by unfold pqOrdered; decide) rfl ⟨"M", 'B', 5, 0, true, 2⟩ (by simp)
  · exact queue_price_time_priority.2.2
      [⟨"L", 'B', 5, 10, false, 1⟩, ⟨"M", 'B', 5, 0, true, 2⟩]
      ⟨"L", 'B', 5, 10, false, 1⟩ [⟨"M", 'B', 5, 0, true, 2⟩]
      (by decide) (by unfold pqOrdered; decide) rfl ⟨"M", 'B', 5, 0, true, 2⟩ (by simp) (by decide)
      ⟨"L", 'B', 5, 10, false, 1⟩ (by simp) (by decide)

/-- C9: the price-zero artifact is asymmetric — on the ask side a resting
market sell (limit price 0) heads the queue whenever every resting limit
sell is positive-priced, while on the bid side the head is never a market
order when a positive-priced limit buy rests.  (Market orders carry limit
price 0 by `parseOrder`; both facts are stated for queues whose limit
orders are positive-priced.) -/
theorem market_rank_asymmetry :
    (∀ (l : List Order) (h : Order) (t : List Order), (∀ o ∈ l, o.type = 'S') →
        pqOrdered l →
        (∀ o ∈ l, o.isMarketOrder = true → o.limitPrice = 0) →
        (∀ o ∈ l, o.isMarketOrder = false → 0 < o.limitPrice) →
        l = h :: t → (∃ m ∈ l, m.isMarketOrder = true) → h.isMarketOrder = true)
  ∧ (∀ (l : List Order) (h : Order) (t : List Order), (∀ o ∈ l, o.type = 'B') →
        pqOrdered l →
        (∀ o ∈ l, o.isMarketOrder = true → o.limitPrice = 0) →
        (∀ o ∈ l, o.isMarketOrder = false → 0 < o.limitPrice) →
        l = h :: t → (∃ b ∈ l, 0 < b.limitPrice) → h.isMarketOrder = false) := by
  constructor
  · intro l h t hT hs hmkt hlim hl hex
    obtain ⟨m, hm, hmTrue⟩ := hex
    have hd := queue_price_time_priority.2.1 l h t hT hs hl m hm
    have hm0 : m.limitPrice = 0 := hmkt m hm hmTrue
    have hle : h.limitPrice ≤ 0 := by
      rcases hd with hlt | ⟨he, _⟩
      · exact le_of_lt (hm0 ▸ hlt)
      · exact le_of_eq (he.trans hm0)
    cases hh : h.isMarketOrder with
    | true => rfl
    | false =>
      have := hlim h (hl ▸ List.mem_cons_self h t) hh
      exact absurd (lt_of_lt_of_le this hle) (lt_irrefl 0)
  · intro l h t hT hs hmkt hlim hl hex
    obtain ⟨b, hb, hbpos⟩ := hex
    have hd := queue_price_time_priority.1 l h t hT hs hl b hb
    have hpos : 0 < h.limitPrice := by
      rcases hd with hlt | ⟨he, _⟩
      · exact hbpos.trans hlt
      · exact he ▸ hbpos
    cases hh : h.isMarketOrder with
    | false => rfl
    | true =>
      have := hmkt h (hl ▸ List.mem_cons_self h t) hh
      rw [this] at hpos
      exact absurd hpos (lt_irrefl 0)

/-- Witness for C9 on concrete queues: a market sell heads an ask queue
that also holds a positive-priced limit sell, and a limit buy heads a bid
queue that also holds a market buy. -/
theorem market_rank_asymmetry_witness :
    (⟨"MS", 'S', 5, 0, true, 2⟩ : Order).isMarketOrder = true
  ∧ (⟨"L", 'B', 5, 10, false, 1⟩ : Order).isMarketOrder = false := by
  constructor
  · exact market_rank_asymmetry.1
      [⟨"MS", 'S', 5, 0, true, 2⟩, ⟨"LS", 'S', 5, 7, false, 1⟩]
      ⟨"MS", 'S', 5, 0, true, 2⟩ [⟨"LS", 'S', 5, 7, false, 1⟩]
      (by decide) (by unfold pqOrdered; decide) (by decide) (by decide) rfl
      ⟨⟨"MS", 'S', 5, 0, true, 2⟩, by simp, rfl⟩
  · exact market_rank_asymmetry.2
      [⟨"L", 'B', 5, 10, false, 1⟩, ⟨"M", 'B', 5, 0, true, 2⟩]
      ⟨"L", 'B', 5, 10, false, 1⟩ [⟨"M", 'B', 5, 0, true, 2⟩]
      (by decide) (by unfold pqOrdered; decide) (by decide) (by decide) rfl
      ⟨⟨"L", 'B', 5, 10, false, 1⟩, by simp, by decide⟩

/-- C4: conservation — for every order submitted with positive quantity
(in a session whose orders carry pairwise-distinct ids, as the spec
requires), the total quantity its id trades across the session plus the
quantity the final unexecuted report carries for it (0 if absent) equals
its originally submitted quantity. -/
theorem conservation (p : ℚ) (orders : List Order) (o : Order)
    (ho : o ∈ orders) (_hq : 0 < o.quantity)
    (hids : orders.Pairwise fun a b => a.id ≠ b.id) :
    tradedSum o.id (runOrders ⟨[], [], p⟩ orders).2
      + unexQty o.id (writeUnexecutedOrders (runOrders ⟨[], [], p⟩ orders).1).2
      = o.quantity := by
  have h1 := runOrders_qSum o.id orders ⟨[], [], p⟩
  have h2 := writeUnexecuted_qSum o.id (runOrders ⟨[], [], p⟩ orders).1
  have h3 := osSum_of_mem orders o ho hids
  have h4 : qSum o.id (⟨[], [], p⟩ : OrderBook).buyOrders = 0 := rfl
  have h5 : qSum o.id (⟨[], [], p⟩ : OrderBook).sellOrders = 0 := rfl
  omega

/-- Witness for C4 on the spec's own example session: `O1 B 10 @101` then
`O2 S 5 @99`; `O1` trades 5 and rests 5, so 5 + 5 = 10. -/
theorem conservation_witness :
    (0 : Int) < 10
  ∧ tradedSum "O1" (runOrders ⟨[], [], 100⟩
      [⟨"O1", 'B', 10, 101, false, 1⟩, ⟨"O2", 'S', 5, 99, false, 2⟩]).2
    + unexQty "O1" (writeUnexecutedOrders (runOrders ⟨[], [], 100⟩
      [⟨"O1", 'B', 10, 101, false, 1⟩, ⟨"O2", 'S', 5, 99, false, 2⟩]).1).2
    = 10 :=
  ⟨by norm_num,
    conservation 100 [⟨"O1", 'B', 10, 101, false, 1⟩, ⟨"O2", 'S', 5, 99, false, 2⟩]
      ⟨"O1", 'B', 10, 101, false, 1⟩ (by simp) (by norm_num) (by simp)⟩

/-- C10: producing the unexecuted report does not modify the order book —
both queues and the last traded price are returned exactly as they were,
since the method drains copies of the queues. -/
theorem writeUnexecutedOrders_frame (bk : OrderBook) :
    (writeUnexecutedOrders bk).1.buyOrders = bk.buyOrders
  ∧ (writeUnexecutedOrders bk).1.sellOrders = bk.sellOrders
  ∧ (writeUnexecutedOrders bk).1.lastTradedPrice = bk.lastTradedPrice :=
  ⟨rfl, rfl, rfl⟩
